import Mathlib

/-!
Verification of the bounce-integral subsystem of DESC.

The development shallowly embeds the bounce-point solver, the debug
validation, the spline construction and the quadrature layer of
`desc/integrals/fourier_bounce_integral.py`, `desc/integrals/bounce_integral.py`
and `desc/compute/utils.py`. Batch axes (pitch, field line, flux surface) are
dropped: every definition works on one pitch value and one field line, which is
the granularity at which the verified properties are stated. Floating point is
modelled by `ℚ` where the code only compares and rearranges numbers, and by
`ℝ` where trigonometry is involved (the derivative-sign classification).
Calls into external numerical kernels (the Chebyshev companion-matrix root
solver `orthax.chebroots`) are modelled by passing the list of returned complex
roots as an explicit argument; every post-processing step applied to that list
is translated from the source.  Helper functions that live in repository
modules not present in this source snapshot (`desc/integrals/bounce_utils.py`,
`desc/integrals/interp_utils.py`, `desc/integrals/quad_utils.py`,
`desc/utils.py`) are modelled from the specification and are marked as such in
their doc comments.
-/

/-! ### Definitions -/

/-- Embeds the error detection of
`PiecewiseChebyshevBasis.check_bounce_points`
(src/desc/integrals/fourier_bounce_integral.py, lines 479-520) for one pitch
value and one field line.  The code computes `mask = (bp1 - bp2) != 0`, writes
NaN into the masked-out (padded) entries, and evaluates
`err_1 = any(bp1 > bp2)`, `err_2 = any(bp1[1:] < bp2[:-1])`,
`err_3 = any(B_m > 1/pitch + eps)` where `B_m` is the interpolated |B| at the
pair midpoints; since every comparison against NaN is false, a comparison
participates exactly when the entries involved are unmasked, which is what the
explicit mask conjuncts below express.  The assertion is raised exactly when
`err_1 or err_2 or err_3` holds.  `Bfun` stands for the interpolant evaluation
`self.eval1d`. -/
def checkRaises (Bfun : ℚ → ℚ) (bp1 bp2 : List ℚ) (pitch eps : ℚ) : Bool :=
  let n := bp1.length
  let err1 := (List.range n).any fun i =>
    decide (bp1.getD i 0 ≠ bp2.getD i 0) && decide (bp2.getD i 0 < bp1.getD i 0)
  let err2 := (List.range n).any fun i =>
    decide (i + 1 < n) && decide (bp1.getD i 0 ≠ bp2.getD i 0) &&
      decide (bp1.getD (i + 1) 0 ≠ bp2.getD (i + 1) 0) &&
      decide (bp1.getD (i + 1) 0 < bp2.getD i 0)
  let err3 := (List.range n).any fun i =>
    decide (bp1.getD i 0 ≠ bp2.getD i 0) &&
      decide (1 / pitch + eps < Bfun ((bp1.getD i 0 + bp2.getD i 0) / 2))
  err1 || err2 || err3

/-- The validity mask of `check_bounce_points`: a bounce-point pair takes part
in the checks exactly when `bp1` and `bp2` differ there (padded pairs are
forced equal by `bounce_points`). -/
def bpMask (bp1 bp2 : List ℚ) (i : ℕ) : Prop :=
  bp1.getD i 0 ≠ bp2.getD i 0

/-- Embeds the domain validation of `FourierChebyshevBasis.__init__`
(src/desc/integrals/fourier_bounce_integral.py, lines 82-88):
`errorif(domain[0] > domain[-1], msg="Got inverted domain.")` followed by
`errorif(lobatto, NotImplementedError, ...)`.  The same domain check guards
`PiecewiseChebyshevBasis.__init__` (line 233). -/
def mkFourierChebyshevBasis (M N : ℕ) (domain : ℚ × ℚ) (lobatto : Bool) :
    Except String (ℕ × ℕ × (ℚ × ℚ)) :=
  if domain.1 > domain.2 then .error "Got inverted domain."
  else if lobatto then .error "JAX has not implemented type 1 DCT."
  else .ok (M, N, domain)

/-- Modelled from the spec: construction of the local spline object fails if
the knot sequence is not strictly increasing (spec section 4.1).  The knot
validation itself lives in code missing from this source snapshot (the spline
backend reached from `Bounce1D.__init__`), so the check is modelled as stated
by the spec. -/
def mkKnots (knots : List ℚ) : Except String (List ℚ) :=
  if knots.Chain' (· < ·) then .ok knots
  else .error "knots must be strictly increasing"

/-- A constructor result that did not raise. -/
def exceptOk {ε α : Type} (e : Except ε α) : Prop :=
  ∃ a, e = .ok a

/-- Embeds `jnp.sign`. -/
def signQ (x : ℚ) : ℚ :=
  if 0 < x then 1 else if x < 0 then -1 else 0

/-- Embeds the B^ζ sign handling of `Bounce1D.__init__`
(src/desc/integrals/bounce_integral.py, lines 144-161): the warning condition
is `check and warn and any(B^ζ <= 0)`; the stored field is
`abs(B^ζ) * Lref / Bref` and the stored derivative is
`B^ζ_z * sign(B^ζ) * Lref / Bref`.  Returns
(warning emitted, stored B^ζ, stored derivative).  The |B| entries of the data
dict are only rescaled by `1/Bref` and do not participate in the sign
correction. -/
def processBzeta (bz bzz : List ℚ) (Lref Bref : ℚ) (check warn : Bool) :
    Bool × List ℚ × List ℚ :=
  (check && warn && bz.any fun v => decide (v ≤ 0),
   bz.map fun v => |v| * Lref / Bref,
   (bzz.zip bz).map fun p => p.1 * signQ p.2 * Lref / Bref)

/-- One segment of the C¹ cubic Hermite interpolant on the interval
`[x0, x1]`: the unique cubic matching the sampled values `y0, y1` and sampled
derivatives `d0, d1` at the endpoints, written in the local power basis of
`scipy`-style piecewise polynomials (coefficients listed from the cubic one
down, in the local variable `t = x - x0`).  This is the output contract of the
external `CubicHermiteSpline` call in `bounce_integral`
(src/desc/compute/utils.py, lines 1521-1527). -/
def hermiteSegment (x0 x1 y0 y1 d0 d1 : ℚ) : ℚ × ℚ × ℚ × ℚ :=
  let h := x1 - x0
  let slope := (y1 - y0) / h
  ((d0 + d1 - 2 * slope) / h ^ 2, (3 * slope - 2 * d0 - d1) / h, d0, y0)

/-- The list of Hermite segments over consecutive knot intervals: `N` knots
yield `N - 1` cubic pieces.  This is the spline held by `Bounce1D`
(src/desc/integrals/bounce_integral.py, lines 167-180, asserted shape
`(M, L, N - 1, 4)`), before any periodic extension. -/
def hermiteSegments (xs ys ds : List ℚ) : List (ℚ × ℚ × ℚ × ℚ) :=
  let t := (xs.zip ys).zip ds
  (t.zip t.tail).map fun q =>
    hermiteSegment q.1.1.1 q.2.1.1 q.1.1.2 q.2.1.2 q.1.2 q.2.2

/-- Embeds the periodic extension of `bounce_integral`
(src/desc/compute/utils.py, line 1530):
`coef = jnp.append(coef, coef[:, 0][:, jnp.newaxis], axis=1)` duplicates the
first knot interval's polynomial as one extra trailing segment. -/
def periodicExtend (segs : List (ℚ × ℚ × ℚ × ℚ)) : List (ℚ × ℚ × ℚ × ℚ) :=
  segs ++ segs.take 1

/-- Modelled from the spec: `bijection_from_disc` of
`desc/integrals/quad_utils.py` (module missing from this snapshot), the affine
bijection from [-1, 1] onto [a, b], spec section 4.3 step 2:
ζ(x) = (b − a)/2 · x + (a + b)/2. -/
noncomputable def bijectionFromDisc (x a b : ℝ) : ℝ :=
  (b - a) / 2 * x + (a + b) / 2

/-- Modelled from the spec: `_filter_distinct` of
`desc/integrals/interp_utils.py` (module missing from this snapshot).  Called
as `_filter_distinct(y, sentinel=-2.0, eps=eps)` in
`PiecewiseChebyshevBasis.intersect` with the source comment "Pick sentinel
such that only distinct roots are considered intersects": every root whose
distance to its predecessor (the sentinel for the first entry) is within the
duplicate tolerance is replaced by the sentinel. -/
noncomputable def filterDistinct (roots : List ℂ) (sentinel : ℂ) (eps : ℝ) :
    List ℂ :=
  (roots.zip (sentinel :: roots)).map fun p =>
    if Complex.abs (p.1 - p.2) ≤ eps then sentinel else p.1

/-- Embeds the root acceptance test of `PiecewiseChebyshevBasis.intersect`
(src/desc/integrals/fourier_bounce_integral.py, line 294):
`is_intersect = (abs(y.imag) <= eps) & (abs(y.real) <= 1.0)`. -/
def isIntersectPred (eps : ℝ) (r : ℂ) : Prop :=
  |r.im| ≤ eps ∧ |r.re| ≤ 1

noncomputable instance (eps : ℝ) (r : ℂ) : Decidable (isIntersectPred eps r) :=
  inferInstanceAs (Decidable (|r.im| ≤ eps ∧ |r.re| ≤ 1))

/-- Embeds line 295 of `PiecewiseChebyshevBasis.intersect`:
`y = jnp.where(is_intersect, y.real, 1.0)`, ensuring the subsequent `arccos`
receives an argument in its domain. -/
noncomputable def yClamp (eps : ℝ) (r : ℂ) : ℝ :=
  if |r.im| ≤ eps ∧ |r.re| ≤ 1 then r.re else 1

/-- Embeds the derivative-sign quantity of `PiecewiseChebyshevBasis.intersect`
(src/desc/integrals/fourier_bounce_integral.py, lines 299-305):
`s = vecdot(n * sin(n * arccos y), cheb)`, i.e.
s(y) = ∑ₙ aₙ · n · sin(n · arccos y), whose sign the source documents as
`sign ∂f/∂y`. -/
noncomputable def sDeriv (a : List ℝ) (y : ℝ) : ℝ :=
  ∑ i ∈ Finset.range a.length, a.getD i 0 * (i * Real.sin (i * Real.arccos y))

/-- The Chebyshev interpolant represented by one row of `cheb` coefficients:
f(y) = ∑ₙ aₙ Tₙ(y), the function whose roots and monotonicity
`PiecewiseChebyshevBasis.intersect` analyses. -/
noncomputable def chebInterp (a : List ℝ) (y : ℝ) : ℝ :=
  ∑ i ∈ Finset.range a.length, a.getD i 0 * (Polynomial.Chebyshev.T ℝ i).eval y

/-- The derivative of `chebInterp`, obtained by differentiating each Chebyshev
polynomial. -/
noncomputable def chebInterpDeriv (a : List ℝ) (y : ℝ) : ℝ :=
  ∑ i ∈ Finset.range a.length,
    a.getD i 0 * (Polynomial.derivative (Polynomial.Chebyshev.T ℝ i)).eval y

/-- Embeds `_subtract` (src/desc/integrals/fourier_bounce_integral.py, lines
188-198): subtract `k` from the degree-zero Chebyshev coefficient, so that
roots of the result are the solutions of f(y) = k. -/
def subtractCheb (a : List ℝ) (k : ℝ) : List ℝ :=
  match a with
  | [] => []
  | c :: cs => (c - k) :: cs

/-- The subsequence of `y` selected by the boolean mask `m`, in order. -/
def keptOf {α : Type} (y : List α) (m : List Bool) : List α :=
  (y.zip m).filterMap fun p => if p.2 then some p.1 else none

/-- Modelled from the spec: `take_mask` of `desc/utils.py` (module missing
from this snapshot).  Its call sites document it as gathering the entries of
`y` whose mask is true, preserving order, right-padded with `fill` to the
requested size. -/
def takeMask {α : Type} (y : List α) (m : List Bool) (size : ℕ) (fill : α) :
    List α :=
  (keptOf y m ++ List.replicate size fill).take size

/-- Embeds the output stage of `PiecewiseChebyshevBasis.bounce_points`
(src/desc/integrals/fourier_bounce_integral.py, lines 361-368):
`sentinel = domain[0] - 1`; `bp1/bp2 = take_mask(y, is_bp1/is_bp2,
size=num_well, fill_value=sentinel)`; `mask = (bp1 > sentinel) & (bp2 >
sentinel)`; entries outside the mask are set to the same value 0.0 so that
integration there is over a set of measure zero. -/
noncomputable def padStage (y : List ℝ) (isBp1 isBp2 : List Bool)
    (numWell : ℕ) (sentinel : ℝ) : List ℝ × List ℝ :=
  let bp1 := takeMask y isBp1 numWell sentinel
  let bp2 := takeMask y isBp2 numWell sentinel
  ((bp1.zip bp2).map fun p =>
      if sentinel < p.1 ∧ sentinel < p.2 then p.1 else 0,
   (bp1.zip bp2).map fun p =>
      if sentinel < p.1 ∧ sentinel < p.2 then p.2 else 0)

/-- Embeds the per-piece post-processing of
`PiecewiseChebyshevBasis.intersect`
(src/desc/integrals/fourier_bounce_integral.py, lines 286-310): duplicate
filtering of the roots `rs` returned by the external solver `orthax.chebroots`
for piece `j` with coefficients `c`, the acceptance test, clamping, the
derivative-sign classification (`is_decreasing = (s ≤ 0)`,
`is_increasing = (0 ≤ s)`), and the map onto field-line coordinates:
`bijection_from_disc` composed with the piece shift of
`_isomorphism_to_C1` (line 425: `z = y + j * (domain[-1] - domain[0])`).
Each entry is (coordinate, is_intersect, is_decreasing, is_increasing). -/
noncomputable def intersectPiece (c : List ℝ) (rs : List ℂ)
    (eps d0 d1 : ℝ) (j : ℕ) : List (ℝ × Bool × Bool × Bool) :=
  (filterDistinct rs (-2) eps).map fun r =>
    (bijectionFromDisc (yClamp eps r) d0 d1 + j * (d1 - d0),
      decide (isIntersectPred eps r),
      decide (sDeriv c (yClamp eps r) ≤ 0),
      decide (0 ≤ sDeriv c (yClamp eps r)))

/-- Embeds `PiecewiseChebyshevBasis.bounce_points`
(src/desc/integrals/fourier_bounce_integral.py, lines 312-369) for one pitch
value and one field line.  `cheb` holds the Chebyshev coefficient rows of the
pieces and `roots` the per-piece output of the external root solver applied
to the coefficients with the pitch-inverse subtracted from the constant term
(`_subtract`, embedded as `subtractCheb`); `(d0, d1)` is the basis domain.
The per-piece intersect data are flattened and paired:
`is_bp1 = is_decreasing & is_intersect`,
`is_bp2 = is_increasing & _fix_inversion(is_intersect, is_increasing)`.
`_fix_inversion` lives in code missing from this snapshot (the seam-inversion
correction pass of spec section 4.2) and is passed as a parameter `fixInv`. -/
noncomputable def bouncePoints (cheb : List (List ℝ)) (roots : List (List ℂ))
    (eps d0 d1 : ℝ) (fixInv : List Bool → List Bool → List Bool)
    (numWell : ℕ) : List ℝ × List ℝ :=
  let flat := ((List.range cheb.length).map fun j =>
    intersectPiece (cheb.getD j []) (roots.getD j []) eps d0 d1 j).flatten
  let isInt := flat.map fun t => t.2.1
  let isIncr := flat.map fun t => t.2.2.2
  let isBp1 := (flat.map fun t => t.2.2.1).zipWith (· && ·) isInt
  let isBp2 := isIncr.zipWith (· && ·) (fixInv isInt isIncr)
  padStage (flat.map fun t => t.1) isBp1 isBp2 numWell (d0 - 1)

/-- Modelled from the spec: one slot of `bounce_quadrature`
(`desc/integrals/bounce_utils.py`, module missing from this snapshot), spec
section 4.3 step 5: result = ∑ₖ wₖ · g′(xₖ) · ((z2 − z1)/2) ·
integrand(ζ(g(xₖ))), where `g` is the singularity-removing automorphism and
ζ the affine map of the well onto [-1, 1]. -/
noncomputable def quadSlot (quad : List (ℝ × ℝ)) (g gp : ℝ → ℝ) (F : ℝ → ℝ)
    (z1 z2 : ℝ) : ℝ :=
  (quad.map fun p =>
    p.2 * gp p.1 * ((z2 - z1) / 2) * F (bijectionFromDisc (g p.1) z1 z2)).sum

/-- The bounce integrals of one pitch value along one field line: quadrature
applied to every bounce-point pair produced by the solver.  This composes the
solver of `PiecewiseChebyshevBasis.bounce_points` with the spec-modelled
quadrature slot, mirroring `Bounce1D.integrate`
(src/desc/integrals/bounce_integral.py, lines 280-381). -/
noncomputable def integrateModel (cheb : List (List ℝ))
    (roots : List (List ℂ)) (eps d0 d1 : ℝ)
    (fixInv : List Bool → List Bool → List Bool) (numWell : ℕ)
    (quad : List (ℝ × ℝ)) (g gp : ℝ → ℝ) (F : ℝ → ℝ) : List ℝ :=
  let bp := bouncePoints cheb roots eps d0 d1 fixInv numWell
  (bp.1.zip bp.2).map fun p => quadSlot quad g gp F p.1 p.2

/-- Modelled from the spec: the per-pitch row of bounce integrals; the wells
of one pitch value are integrated slot by slot (spec section 4.3). -/
noncomputable def integrateRow (quad : List (ℝ × ℝ)) (g gp : ℝ → ℝ)
    (F : ℝ → ℝ → ℝ) (pw : ℝ × List (ℝ × ℝ)) : List ℝ :=
  pw.2.map fun p => quadSlot quad g gp (F pw.1) p.1 p.2

/-- Modelled from the spec: batched execution of `bounce_quadrature`
(`batch=True` of `Bounce1D.integrate`): all pitch rows are produced by one
vectorized map over the batch. -/
noncomputable def integrateBatched (quad : List (ℝ × ℝ)) (g gp : ℝ → ℝ)
    (F : ℝ → ℝ → ℝ) (batchData : List (ℝ × List (ℝ × ℝ))) : List (List ℝ) :=
  batchData.map (integrateRow quad g gp F)

/-- Modelled from the spec: sequential execution of `bounce_quadrature`
(`batch=False` of `Bounce1D.integrate`): the result tensor is assembled by an
explicit loop over the pitch axis, appending one row at a time. -/
noncomputable def integrateSequential (quad : List (ℝ × ℝ)) (g gp : ℝ → ℝ)
    (F : ℝ → ℝ → ℝ) (batchData : List (ℝ × List (ℝ × ℝ))) : List (List ℝ) :=
  batchData.foldl (fun acc pw => acc ++ [integrateRow quad g gp F pw]) []

/-! ### Theorems -/

/-- Subtracting `k` from the constant Chebyshev coefficient shifts the
interpolant by `k`: the roots of `subtractCheb a k` are the solutions of
f(y) = k, which is how `intersect` reduces the intersection problem to root
finding. -/
theorem chebInterp_subtractCheb (a : List ℝ) (k y : ℝ) (ha : a ≠ []) :
    chebInterp (subtractCheb a k) y = chebInterp a y - k := by
  obtain ⟨c, cs, rfl⟩ := List.exists_cons_of_ne_nil ha
  simp only [chebInterp, subtractCheb, List.length_cons]
  rw [Finset.sum_range_succ', Finset.sum_range_succ']
  simp [Polynomial.Chebyshev.T_zero]
  ring

/-- C6 (counterexample): with `N = 3` knots the spline held by `Bounce1D`
(src/desc/integrals/bounce_integral.py, lines 167-180, which performs no
periodic duplication and asserts the shape `(M, L, N - 1, 4)`) has `N - 1 = 2`
polynomial pieces, not `N = 3` as the claim states for every spline
construction. -/
theorem C6_counterexample :
    (hermiteSegments [0, 1, 2] [5, 5, 5] [0, 1, 0]).length = 2 ∧ (2 : ℕ) ≠ 3 := by
  decide

/-- C6 (amended): in `compute.utils.bounce_integral`
(src/desc/compute/utils.py, lines 1521-1535) the first knot interval's cubic
is appended as one extra trailing segment, so for `N` knots the extended
spline has `N` pieces and its last piece is the first interval's
polynomial. -/
theorem C6_periodic_duplication (xs ys ds : List ℚ) (h2 : 2 ≤ xs.length)
    (hy : ys.length = xs.length) (hd : ds.length = xs.length) :
    (periodicExtend (hermiteSegments xs ys ds)).length = xs.length ∧
    (periodicExtend (hermiteSegments xs ys ds)).getLast? =
      (hermiteSegments xs ys ds).head? := by
  have hlen : (hermiteSegments xs ys ds).length = xs.length - 1 := by
    simp only [hermiteSegments, List.length_map, List.length_zip,
      List.length_tail, hy, hd]
    omega
  have hne : hermiteSegments xs ys ds ≠ [] := by
    intro h
    rw [h] at hlen
    simp at hlen
    omega
  obtain ⟨s, ss, hs⟩ := List.exists_cons_of_ne_nil hne
  have ht : (hermiteSegments xs ys ds).take 1 = [s] := by
    rw [hs]
    rfl
  constructor
  · rw [periodicExtend, List.length_append, hlen, ht]
    simp only [List.length_cons, List.length_nil]
    omega
  · rw [periodicExtend, ht, List.getLast?_concat, hs]
    rfl

/-- C7: construction validation.  The domain check of
`FourierChebyshevBasis.__init__` / `PiecewiseChebyshevBasis.__init__` raises
exactly on an inverted domain (`domain[0] > domain[-1]`), and the
(spec-modelled) knot validation raises exactly when the knot sequence is not
strictly increasing; well-formed inputs construct without raising. -/
theorem C7_construction_validation (M N : ℕ) (domain : ℚ × ℚ)
    (knots : List ℚ) :
    (exceptOk (mkFourierChebyshevBasis M N domain false) ↔
      domain.1 ≤ domain.2) ∧
    (exceptOk (mkKnots knots) ↔ knots.Chain' (· < ·)) := by
  constructor
  · by_cases h : domain.1 > domain.2
    · simp only [mkFourierChebyshevBasis, if_pos h, exceptOk]
      constructor
      · rintro ⟨a, ha⟩
        cases ha
      · intro hle
        exact absurd hle (not_le.mpr h)
    · simp only [mkFourierChebyshevBasis, if_neg h, if_neg Bool.false_ne_true,
        exceptOk]
      constructor
      · intro _
        exact not_lt.mp h
      · intro _
        exact ⟨_, rfl⟩
  · by_cases h : knots.Chain' (· < ·)
    · simp only [mkKnots, if_pos h, exceptOk]
      exact ⟨fun _ => h, fun _ => ⟨_, rfl⟩⟩
    · simp only [mkKnots, if_neg h, exceptOk]
      constructor
      · rintro ⟨a, ha⟩
        cases ha
      · intro hc
        exact absurd hc h

theorem C6_periodic_duplication_witness :
    (periodicExtend (hermiteSegments [0, 1, 2] [1, 2, 1] [0, 1, 0])).length = 3 ∧
    (periodicExtend (hermiteSegments [0, 1, 2] [1, 2, 1] [0, 1, 0])).getLast? =
      (hermiteSegments [0, 1, 2] [1, 2, 1] [0, 1, 0]).head? :=
  ⟨by
    have h :=
      (C6_periodic_duplication [0, 1, 2] [1, 2, 1] [0, 1, 0] (by decide) rfl
        rfl).1
    simpa using h,
   (C6_periodic_duplication [0, 1, 2] [1, 2, 1] [0, 1, 0] (by decide) rfl
      rfl).2⟩

/-- Indexing through `List.map`. -/
theorem getD_map_of_lt {α β : Type} (f : α → β) (l : List α) (i : ℕ)
    (h : i < l.length) (d : β) (d' : α) :
    (l.map f).getD i d = f (l.getD i d') := by
  rw [List.getD_eq_getElem (l.map f) d (by simpa using h),
    List.getD_eq_getElem l d' h, List.getElem_map]

/-- C8 (counterexample): constructing with `B^zeta = [0]` (a non-positive
value) and the default `check=False` emits no warning, and the stored
`B^zeta` entry is `0`, which is not strictly positive; this refutes the claim
that whenever `B^zeta` contains a non-positive value a warning is emitted and
the stored field is strictly positive. -/
theorem C8_counterexample :
    ((0 : ℚ) ∈ [(0 : ℚ)] ∧ (0 : ℚ) ≤ 0) ∧
    (processBzeta [0] [1] 1 1 false true).1 = false ∧
    ¬(0 < (processBzeta [0] [1] 1 1 false true).2.1.getD 0 1) := by
  refine ⟨⟨List.mem_singleton.mpr rfl, le_refl 0⟩, rfl, ?_⟩
  simp [processBzeta]

/-- C8 (amended): `Bounce1D.__init__` never fails on non-positive `B^zeta`;
the (non-fatal) warning is emitted exactly when the debug flag and the warn
flag are set and some entry is non-positive; the stored field is
`abs(B^zeta) * Lref / Bref`, hence strictly positive exactly at entries where
the input is nonzero (an exact zero stays zero); the stored derivative is the
input derivative multiplied by `sign(B^zeta)` consistently. -/
theorem C8_sign_correction (bz bzz : List ℚ) (Lref Bref : ℚ)
    (check warn : Bool) (hL : 0 < Lref) (hB : 0 < Bref) :
    ((processBzeta bz bzz Lref Bref check warn).1 = true ↔
      (check = true ∧ warn = true ∧ ∃ v ∈ bz, v ≤ 0)) ∧
    (∀ i, i < bz.length →
      (processBzeta bz bzz Lref Bref check warn).2.1.getD i 0 =
        |bz.getD i 0| * Lref / Bref ∧
      (0 < (processBzeta bz bzz Lref Bref check warn).2.1.getD i 0 ↔
        bz.getD i 0 ≠ 0)) ∧
    (∀ i, i < bz.length → i < bzz.length →
      (processBzeta bz bzz Lref Bref check warn).2.2.getD i 0 =
        bzz.getD i 0 * signQ (bz.getD i 0) * Lref / Bref) := by
  refine ⟨?_, ?_, ?_⟩
  · simp only [processBzeta, Bool.and_eq_true, List.any_eq_true,
      decide_eq_true_eq]
    tauto
  · intro i hi
    have h1 : (processBzeta bz bzz Lref Bref check warn).2.1.getD i 0 =
        |bz.getD i 0| * Lref / Bref := by
      simp only [processBzeta]
      exact getD_map_of_lt _ bz i hi 0 0 |>.trans (by simp)
    refine ⟨h1, ?_⟩
    rw [h1]
    constructor
    · intro hpos
      intro h0
      rw [h0] at hpos
      simp at hpos
    · intro hne
      have hv : 0 < |bz.getD i 0| := abs_pos.mpr hne
      rw [mul_div_assoc]
      exact mul_pos hv (div_pos hL hB)
  · intro i hi hzi
    have hz : i < (bzz.zip bz).length := by
      rw [List.length_zip]
      omega
    simp only [processBzeta]
    rw [getD_map_of_lt _ (bzz.zip bz) i hz 0 (0, 0),
      List.getD_eq_getElem (bzz.zip bz) (0, 0) hz, List.getElem_zip]
    rw [List.getD_eq_getElem bzz 0 hzi, List.getD_eq_getElem bz 0 hi]

theorem C8_sign_correction_witness :
    ((0 : ℚ) < 1) ∧
    (((processBzeta [-1] [2] 1 1 true true).1 = true ↔
      (true = true ∧ true = true ∧ ∃ v ∈ [(-1 : ℚ)], v ≤ 0)) ∧
     (∀ i, i < [(-1 : ℚ)].length →
       (processBzeta [-1] [2] 1 1 true true).2.1.getD i 0 =
         |[(-1 : ℚ)].getD i 0| * 1 / 1 ∧
       (0 < (processBzeta [-1] [2] 1 1 true true).2.1.getD i 0 ↔
         [(-1 : ℚ)].getD i 0 ≠ 0)) ∧
     (∀ i, i < [(-1 : ℚ)].length → i < [(2 : ℚ)].length →
       (processBzeta [-1] [2] 1 1 true true).2.2.getD i 0 =
         [(2 : ℚ)].getD i 0 * signQ ([(-1 : ℚ)].getD i 0) * 1 / 1)) :=
  ⟨by norm_num,
   C8_sign_correction [-1] [2] 1 1 true true (by norm_num) (by norm_num)⟩

/-- C9: batched and sequential execution of the bounce quadrature produce
identical results — the sequential loop that appends one pitch row at a time
builds exactly the tensor that the batched map produces, for every quadrature
rule, automorphism, integrand and batch. -/
theorem C9_batched_eq_sequential (quad : List (ℝ × ℝ)) (g gp : ℝ → ℝ)
    (F : ℝ → ℝ → ℝ) (batchData : List (ℝ × List (ℝ × ℝ))) :
    integrateBatched quad g gp F batchData =
      integrateSequential quad g gp F batchData := by
  suffices h : ∀ (l : List (ℝ × List (ℝ × ℝ))) (acc : List (List ℝ)),
      l.foldl (fun acc pw => acc ++ [integrateRow quad g gp F pw]) acc =
        acc ++ l.map (integrateRow quad g gp F) by
    rw [integrateBatched, integrateSequential, h batchData [],
      List.nil_append]
  intro l
  induction l with
  | nil => intro acc; simp
  | cons a l ih =>
      intro acc
      rw [List.foldl_cons, ih, List.map_cons]
      simp

/-- C1: the debug validation raises an assertion exactly when one of the
three bounce-point predicates is violated on a valid (non-padded, `bp1 ≠
bp2`) pair: the check passes iff every valid pair satisfies `z1 ≤ z2`, no
valid well overlaps its valid successor (`bp2[k] ≤ bp1[k+1]`), and the
interpolated |B| at each valid pair's midpoint is at most `1/pitch + eps`. -/
theorem C1_check_raises_iff (Bfun : ℚ → ℚ) (bp1 bp2 : List ℚ)
    (pitch eps : ℚ) :
    checkRaises Bfun bp1 bp2 pitch eps = false ↔
      ((∀ i, i < bp1.length → bpMask bp1 bp2 i →
          bp1.getD i 0 ≤ bp2.getD i 0) ∧
       (∀ i, i + 1 < bp1.length → bpMask bp1 bp2 i → bpMask bp1 bp2 (i + 1) →
          bp2.getD i 0 ≤ bp1.getD (i + 1) 0) ∧
       (∀ i, i < bp1.length → bpMask bp1 bp2 i →
          Bfun ((bp1.getD i 0 + bp2.getD i 0) / 2) ≤ 1 / pitch + eps)) := by
  unfold checkRaises bpMask
  rw [Bool.eq_false_iff]
  simp only [ne_eq, Bool.or_eq_true, List.any_eq_true, List.mem_range,
    Bool.and_eq_true, decide_eq_true_eq, not_or, not_exists, not_and, not_lt,
    and_imp]
  constructor
  · rintro ⟨⟨h1, h2⟩, h3⟩
    exact ⟨h1, fun i hip hm hm' => h2 i (by omega) hip hm hm', h3⟩
  · rintro ⟨h1, h2, h3⟩
    exact ⟨⟨h1, fun i _ hip hm hm' => h2 i hip hm hm'⟩, h3⟩

/-- C10: totality of the root post-processing in
`PiecewiseChebyshevBasis.intersect`.  Every non-accepted root is replaced by
the real value 1 (`yClamp`), so the argument later passed to `arccos` in the
derivative-sign evaluation always lies in [-1, 1]; the coordinate returned by
`intersect` is real and is the image of a point of [-1, 1] under the
bijection onto the basis domain, hence lies in the domain. -/
theorem C10_clamp_total (eps d0 d1 : ℝ) (r : ℂ) (hd : d0 ≤ d1) :
    (-1 ≤ yClamp eps r ∧ yClamp eps r ≤ 1) ∧
    (∃ t, (-1 ≤ t ∧ t ≤ 1) ∧
      bijectionFromDisc (yClamp eps r) d0 d1 = bijectionFromDisc t d0 d1) ∧
    bijectionFromDisc (yClamp eps r) d0 d1 ∈ Set.Icc d0 d1 := by
  have hy : -1 ≤ yClamp eps r ∧ yClamp eps r ≤ 1 := by
    unfold yClamp
    split
    next h => exact abs_le.mp h.2
    next => norm_num
  refine ⟨hy, ⟨yClamp eps r, hy, rfl⟩, ?_⟩
  rw [Set.mem_Icc, bijectionFromDisc]
  constructor
  · nlinarith [hy.1, hy.2]
  · nlinarith [hy.1, hy.2]

theorem C10_clamp_total_witness :
    ((0 : ℝ) ≤ 2) ∧
    ((-1 ≤ yClamp (1 / 100) 5 ∧ yClamp (1 / 100) 5 ≤ 1) ∧
     (∃ t, (-1 ≤ t ∧ t ≤ 1) ∧
       bijectionFromDisc (yClamp (1 / 100) 5) 0 2 = bijectionFromDisc t 0 2) ∧
     bijectionFromDisc (yClamp (1 / 100) 5) 0 2 ∈ Set.Icc (0 : ℝ) 2) :=
  ⟨by norm_num, C10_clamp_total (1 / 100) 0 2 5 (by norm_num)⟩

/-- The value held at position `i` after duplicate filtering: the sentinel if
the root is within `eps` of its predecessor, the root itself otherwise. -/
theorem filterDistinct_getD (roots : List ℂ) (s : ℂ) (eps : ℝ) (i : ℕ)
    (hi : i < roots.length) :
    (filterDistinct roots s eps).getD i 0 =
      if Complex.abs (roots.getD i 0 -
          (if i = 0 then s else roots.getD (i - 1) 0)) ≤ eps
      then s else roots.getD i 0 := by
  have hz : i < (roots.zip (s :: roots)).length := by
    rw [List.length_zip]
    simp only [List.length_cons]
    omega
  unfold filterDistinct
  rw [getD_map_of_lt _ _ i hz 0 (0, 0), List.getD_eq_getElem _ _ hz,
    List.getElem_zip]
  cases i with
  | zero =>
      simp only [List.getElem_cons_zero, eq_self_iff_true, if_true]
      rw [List.getD_eq_getElem roots 0 hi]
  | succ n =>
      simp only [List.getElem_cons_succ, Nat.succ_ne_zero, if_false]
      rw [List.getD_eq_getElem roots 0 hi, Nat.succ_sub_one,
        List.getD_eq_getElem roots 0 (by omega : n < roots.length)]

/-- C3 (counterexample): the duplicated real root 1/2 (well within the
normalized domain, zero imaginary part) is not accepted as an intersection:
the duplicate filter replaces its second copy by the sentinel -2 before the
acceptance test, so a computed root satisfying the tolerance conditions is
nevertheless discarded, refuting the claimed "if and only if". -/
theorem C3_counterexample :
    isIntersectPred (1 / 1000)
      (([((1 : ℝ) / 2 : ℂ), ((1 : ℝ) / 2 : ℂ)]).getD 1 0) ∧
    ¬ isIntersectPred (1 / 1000)
      ((filterDistinct [((1 : ℝ) / 2 : ℂ), ((1 : ℝ) / 2 : ℂ)] (-2)
          (1 / 1000)).getD 1 0) := by
  constructor
  · simp only [List.getD_cons_succ, List.getD_cons_zero, isIntersectPred,
      Complex.ofReal_im, Complex.ofReal_re]
    norm_num [abs_le]
  · rw [filterDistinct_getD _ _ _ 1 (by norm_num)]
    simp only [List.getD_cons_succ, List.getD_cons_zero, Nat.succ_sub_one,
      one_ne_zero, if_false, sub_self, map_zero]
    rw [if_pos (by norm_num)]
    rintro ⟨-, habs⟩
    rw [show ((-2 : ℂ)).re = (-2 : ℝ) by norm_num [Complex.neg_re]] at habs
    norm_num at habs

/-- C3 (amended): after the duplicate filter of `intersect`, a computed root
that is distinct from its predecessor (beyond the tolerance `eps`) is
accepted as a genuine intersection if and only if the magnitude of its
imaginary part is at most `eps` and its real part lies within the normalized
domain [-1, 1]; a root within `eps` of its predecessor is replaced by the
sentinel -2 and is never accepted. -/
theorem C3_root_acceptance (eps : ℝ) (roots : List ℂ) (i : ℕ)
    (hi : i < roots.length) :
    (Complex.abs (roots.getD i 0 -
        (if i = 0 then (-2 : ℂ) else roots.getD (i - 1) 0)) ≤ eps →
      ¬ isIntersectPred eps ((filterDistinct roots (-2) eps).getD i 0)) ∧
    (eps < Complex.abs (roots.getD i 0 -
        (if i = 0 then (-2 : ℂ) else roots.getD (i - 1) 0)) →
      (isIntersectPred eps ((filterDistinct roots (-2) eps).getD i 0) ↔
        isIntersectPred eps (roots.getD i 0))) := by
  rw [filterDistinct_getD roots (-2) eps i hi]
  constructor
  · intro hc
    rw [if_pos hc]
    rintro ⟨-, habs⟩
    rw [show ((-2 : ℂ)).re = (-2 : ℝ) by norm_num [Complex.neg_re]] at habs
    norm_num at habs
  · intro hc
    rw [if_neg (not_le.mpr hc)]

theorem C3_root_acceptance_witness :
    (1 : ℕ) < ([((1 : ℝ) / 2 : ℂ), ((3 : ℝ) / 4 : ℂ)]).length ∧
    ((Complex.abs (([((1 : ℝ) / 2 : ℂ), ((3 : ℝ) / 4 : ℂ)]).getD 1 0 -
        (if 1 = 0 then (-2 : ℂ)
         else ([((1 : ℝ) / 2 : ℂ), ((3 : ℝ) / 4 : ℂ)]).getD (1 - 1) 0)) ≤
          (1 / 1000) →
      ¬ isIntersectPred (1 / 1000)
        ((filterDistinct [((1 : ℝ) / 2 : ℂ), ((3 : ℝ) / 4 : ℂ)] (-2)
            (1 / 1000)).getD 1 0)) ∧
     ((1 / 1000 : ℝ) < Complex.abs (([((1 : ℝ) / 2 : ℂ), ((3 : ℝ) / 4 : ℂ)]).getD 1 0 -
        (if 1 = 0 then (-2 : ℂ)
         else ([((1 : ℝ) / 2 : ℂ), ((3 : ℝ) / 4 : ℂ)]).getD (1 - 1) 0)) →
      (isIntersectPred (1 / 1000)
        ((filterDistinct [((1 : ℝ) / 2 : ℂ), ((3 : ℝ) / 4 : ℂ)] (-2)
            (1 / 1000)).getD 1 0) ↔
       isIntersectPred (1 / 1000)
         (([((1 : ℝ) / 2 : ℂ), ((3 : ℝ) / 4 : ℂ)]).getD 1 0)))) :=
  ⟨by norm_num,
   C3_root_acceptance (1 / 1000) [((1 : ℝ) / 2 : ℂ), ((3 : ℝ) / 4 : ℂ)] 1
     (by norm_num)⟩

/-- The quantity `chebInterpDeriv` is the derivative of the Chebyshev
interpolant `chebInterp`. -/
theorem chebInterp_hasDerivAt (a : List ℝ) (y : ℝ) :
    HasDerivAt (chebInterp a) (chebInterpDeriv a y) y := by
  unfold chebInterp chebInterpDeriv
  exact HasDerivAt.sum fun i _ =>
    HasDerivAt.const_mul (a.getD i 0)
      (Polynomial.hasDerivAt (Polynomial.Chebyshev.T ℝ i) y)

/-- The code's derivative-sign quantity
s(y) = ∑ₙ aₙ n sin(n arccos y) equals the interpolant's derivative times
sin(arccos y) on [-1, 1]: the identities Tₙ' = n Uₙ₋₁ and
Uₙ₋₁(cos θ) sin θ = sin(n θ) combine termwise. -/
theorem sDeriv_eq_mul_sin (a : List ℝ) (y : ℝ) (h1 : -1 ≤ y) (h2 : y ≤ 1) :
    sDeriv a y = chebInterpDeriv a y * Real.sin (Real.arccos y) := by
  unfold sDeriv chebInterpDeriv
  rw [Finset.sum_mul]
  refine Finset.sum_congr rfl fun i _ => ?_
  rw [mul_assoc]
  congr 1
  set θ := Real.arccos y with hθ
  have hcos : Real.cos θ = y := Real.cos_arccos h1 h2
  have hU : (Polynomial.Chebyshev.U ℝ ((i : ℤ) - 1)).eval y * Real.sin θ =
      Real.sin (i * θ) := by
    have h := Polynomial.Chebyshev.U_real_cos θ ((i : ℤ) - 1)
    rw [hcos] at h
    rw [h]
    push_cast
    ring_nf
  rw [Polynomial.Chebyshev.T_derivative_eq_U, Polynomial.eval_mul,
    Polynomial.eval_intCast, ← hU]
  push_cast
  ring

/-- C4: for an accepted intersection at normalized coordinate `y`, the sign
of the interpolant's derivative decides the classification computed by
`intersect`: a nonpositive derivative makes `is_decreasing = (s ≤ 0)` hold
(entry-point candidacy, the `is_decreasing` conjunct of `is_bp1` in
`bounce_points`), a nonnegative derivative makes `is_increasing = (0 ≤ s)`
hold (exit-point candidacy), and a zero derivative makes both hold.  Here
`sDeriv` is the code's classification quantity and `chebInterpDeriv` the
derivative of the interpolant (`chebInterp_hasDerivAt`). -/
theorem C4_derivative_sign_classification (a : List ℝ) (y : ℝ)
    (h1 : -1 ≤ y) (h2 : y ≤ 1) :
    (chebInterpDeriv a y ≤ 0 → sDeriv a y ≤ 0) ∧
    (0 ≤ chebInterpDeriv a y → 0 ≤ sDeriv a y) ∧
    (chebInterpDeriv a y = 0 → sDeriv a y ≤ 0 ∧ 0 ≤ sDeriv a y) := by
  have hs := sDeriv_eq_mul_sin a y h1 h2
  have hsin : 0 ≤ Real.sin (Real.arccos y) := by
    rw [Real.sin_arccos]
    exact Real.sqrt_nonneg _
  refine ⟨fun h => ?_, fun h => ?_, fun h => ?_⟩
  · rw [hs]
    exact mul_nonpos_iff.mpr (Or.inr ⟨h, hsin⟩)
  · rw [hs]
    exact mul_nonneg h hsin
  · rw [hs, h, zero_mul]
    exact ⟨le_refl 0, le_refl 0⟩

theorem C4_derivative_sign_classification_witness :
    ((-1 : ℝ) ≤ 1 ∧ (1 : ℝ) ≤ 1) ∧
    ((chebInterpDeriv [0, 1] 1 ≤ 0 → sDeriv [0, 1] 1 ≤ 0) ∧
     (0 ≤ chebInterpDeriv [0, 1] 1 → 0 ≤ sDeriv [0, 1] 1) ∧
     (chebInterpDeriv [0, 1] 1 = 0 → sDeriv [0, 1] 1 ≤ 0 ∧ 0 ≤ sDeriv [0, 1] 1)) :=
  ⟨by norm_num,
   C4_derivative_sign_classification [0, 1] 1 (by norm_num) (by norm_num)⟩

/-- Every entry selected by a mask comes from the original list. -/
theorem mem_of_mem_keptOf {α : Type} (y : List α) (m : List Bool) (v : α)
    (hv : v ∈ keptOf y m) : v ∈ y := by
  rw [keptOf, List.mem_filterMap] at hv
  obtain ⟨p, hp, hf⟩ := hv
  by_cases h2 : p.2
  · rw [if_pos h2, Option.some_inj] at hf
    rw [← hf]
    exact (List.of_mem_zip hp).1
  · rw [if_neg h2] at hf
    cases hf

/-- An all-false mask selects nothing. -/
theorem keptOf_eq_nil {α : Type} (y : List α) (m : List Bool)
    (h : ∀ b ∈ m, b = false) : keptOf y m = [] := by
  rw [keptOf, List.filterMap_eq_nil_iff]
  intro p hp
  rw [h p.2 (List.of_mem_zip hp).2]
  rfl

/-- `take_mask` always returns an array of exactly the requested size. -/
theorem takeMask_length {α : Type} (y : List α) (m : List Bool) (n : ℕ)
    (fill : α) : (takeMask y m n fill).length = n := by
  rw [takeMask, List.length_take, List.length_append, List.length_replicate]
  omega

/-- With an all-false mask, `take_mask` returns pure padding. -/
theorem takeMask_of_false {α : Type} (y : List α) (m : List Bool) (n : ℕ)
    (fill : α) (h : ∀ b ∈ m, b = false) :
    takeMask y m n fill = List.replicate n fill := by
  rw [takeMask, keptOf_eq_nil y m h, List.nil_append,
    List.take_of_length_le (by rw [List.length_replicate])]

/-- A quadrature slot over an empty interval is exactly zero. -/
theorem quadSlot_eq_zero (quad : List (ℝ × ℝ)) (g gp : ℝ → ℝ) (F : ℝ → ℝ)
    (z : ℝ) : quadSlot quad g gp F z z = 0 := by
  rw [quadSlot]
  apply List.sum_eq_zero
  intro x hx
  rw [List.mem_map] at hx
  obtain ⟨p, hp, rfl⟩ := hx
  rw [sub_self, zero_div, mul_zero, zero_mul]

/-- Conjunction with an all-false list is all false. -/
theorem zipWith_and_right_false (l1 l2 : List Bool)
    (h : ∀ b ∈ l2, b = false) :
    ∀ b ∈ l1.zipWith (· && ·) l2, b = false := by
  induction l1 generalizing l2 with
  | nil => intro b hb; simp at hb
  | cons a t ih =>
      cases l2 with
      | nil => intro b hb; simp at hb
      | cons c u =>
          intro b hb
          rw [List.zipWith_cons_cons] at hb
          rcases List.mem_cons.mp hb with rfl | hmem
          · rw [h c (List.mem_cons_self c u), Bool.and_false]
          · exact ih u (fun x hx => h x (List.mem_cons_of_mem c hx)) b hmem

/-- A duplicate-filtered root is the sentinel or one of the raw roots. -/
theorem mem_filterDistinct (roots : List ℂ) (s : ℂ) (eps : ℝ) (r : ℂ)
    (hr : r ∈ filterDistinct roots s eps) : r = s ∨ r ∈ roots := by
  rw [filterDistinct, List.mem_map] at hr
  obtain ⟨p, hp, rfl⟩ := hr
  by_cases hc : Complex.abs (p.1 - p.2) ≤ eps
  · rw [if_pos hc]
    exact Or.inl rfl
  · rw [if_neg hc]
    exact Or.inr (List.of_mem_zip hp).1

/-- With no entry-point candidates, the output stage pads every slot to the
pair (0, 0). -/
theorem padStage_of_false (y : List ℝ) (m1 m2 : List Bool) (n : ℕ) (s : ℝ)
    (h : ∀ b ∈ m1, b = false) :
    padStage y m1 m2 n s = (List.replicate n 0, List.replicate n 0) := by
  have h1 : takeMask y m1 n s = List.replicate n s := takeMask_of_false y m1 n s h
  simp only [padStage, h1]
  rw [Prod.mk.injEq]
  constructor <;>
  · rw [List.eq_replicate_iff]
    constructor
    · rw [List.length_map, List.length_zip, List.length_replicate,
        takeMask_length]
      omega
    · intro b hb
      rw [List.mem_map] at hb
      obtain ⟨p, hp, rfl⟩ := hb
      have hp1 : p.1 = s :=
        List.eq_of_mem_replicate (List.of_mem_zip hp).1
      rw [if_neg]
      rintro ⟨hlt, -⟩
      rw [hp1] at hlt
      exact lt_irrefl s hlt

/-- C2: for a pitch whose inverse lies strictly below the minimum of |B| along
the field line, the solver detects zero wells — every slot of the well axis is
padded to the pair (0, 0) — and the bounce integral is exactly 0 in every
well slot.  `hne` reflects the `errorif(N < 2)` guard of `bounce_points`
(nonempty coefficient rows); `hmin` states 1/λ < |B|(y) on the normalized
domain of every piece; `hsound` states that the external root solver only
returns values that are genuine roots of the shifted coefficients
(`subtractCheb`) whenever they pass the acceptance tolerances. -/
theorem C2_low_pitch_zero_wells (cheb : List (List ℝ)) (roots : List (List ℂ))
    (pitchInv eps d0 d1 : ℝ)
    (fixInv : List Bool → List Bool → List Bool) (numWell : ℕ)
    (quad : List (ℝ × ℝ)) (g gp : ℝ → ℝ) (F : ℝ → ℝ)
    (hne : ∀ j, j < cheb.length → cheb.getD j [] ≠ [])
    (hmin : ∀ j, j < cheb.length → ∀ t : ℝ, -1 ≤ t → t ≤ 1 →
      pitchInv < chebInterp (cheb.getD j []) t)
    (hsound : ∀ j, j < cheb.length → ∀ r ∈ roots.getD j [],
      |r.im| ≤ eps → |r.re| ≤ 1 →
      chebInterp (subtractCheb (cheb.getD j []) pitchInv) r.re = 0) :
    bouncePoints cheb roots eps d0 d1 fixInv numWell =
      (List.replicate numWell 0, List.replicate numWell 0) ∧
    integrateModel cheb roots eps d0 d1 fixInv numWell quad g gp F =
      List.replicate numWell 0 := by
  have hint : ∀ t ∈ ((List.range cheb.length).map fun j =>
      intersectPiece (cheb.getD j []) (roots.getD j []) eps d0 d1 j).flatten,
      t.2.1 = false := by
    intro t ht
    rw [List.mem_flatten] at ht
    obtain ⟨l, hl, htl⟩ := ht
    rw [List.mem_map] at hl
    obtain ⟨j, hj, rfl⟩ := hl
    rw [List.mem_range] at hj
    rw [intersectPiece, List.mem_map] at htl
    obtain ⟨r, hr, rfl⟩ := htl
    rw [decide_eq_false_iff_not]
    rintro ⟨him, hre⟩
    rcases mem_filterDistinct _ _ _ r hr with rfl | hmem
    · rw [show ((-2 : ℂ)).re = (-2 : ℝ) by norm_num [Complex.neg_re]] at hre
      norm_num at hre
    · have h0 := hsound j hj r hmem him hre
      rw [chebInterp_subtractCheb _ _ _ (hne j hj)] at h0
      have hm := hmin j hj r.re (abs_le.mp hre).1 (abs_le.mp hre).2
      linarith
  have hbp : bouncePoints cheb roots eps d0 d1 fixInv numWell =
      (List.replicate numWell 0, List.replicate numWell 0) := by
    simp only [bouncePoints]
    refine padStage_of_false _ _ _ numWell (d0 - 1)
      (zipWith_and_right_false _ _ ?_)
    intro b hb
    rw [List.mem_map] at hb
    obtain ⟨t, ht, rfl⟩ := hb
    exact hint t ht
  refine ⟨hbp, ?_⟩
  simp only [integrateModel, hbp, List.zip_replicate', List.map_replicate]
  rw [quadSlot_eq_zero]

theorem C2_low_pitch_zero_wells_witness :
    (∀ j, j < ([[(2 : ℝ), 0]] : List (List ℝ)).length → ∀ t : ℝ, -1 ≤ t →
      t ≤ 1 →
      (1 : ℝ) < chebInterp (([[(2 : ℝ), 0]] : List (List ℝ)).getD j []) t) ∧
    (bouncePoints [[(2 : ℝ), 0]] [[(5 : ℂ)]] (1 / 100) 0 1 (fun a _ => a) 3 =
       (List.replicate 3 0, List.replicate 3 0) ∧
     integrateModel [[(2 : ℝ), 0]] [[(5 : ℂ)]] (1 / 100) 0 1 (fun a _ => a) 3
         [(0, 1)] id (fun _ => 1) (fun _ => 1) = List.replicate 3 0) := by
  have hc : ∀ t : ℝ, chebInterp [(2 : ℝ), 0] t = 2 := by
    intro t
    rw [chebInterp]
    simp [Finset.sum_range_succ, Polynomial.Chebyshev.T_zero]
  have hmin : ∀ j, j < ([[(2 : ℝ), 0]] : List (List ℝ)).length → ∀ t : ℝ,
      -1 ≤ t → t ≤ 1 →
      (1 : ℝ) < chebInterp (([[(2 : ℝ), 0]] : List (List ℝ)).getD j []) t := by
    intro j hj t h1 h2
    have hj0 : j = 0 := by
      simp only [List.length_cons, List.length_nil] at hj
      omega
    subst hj0
    rw [List.getD_cons_zero, hc]
    norm_num
  refine ⟨hmin, C2_low_pitch_zero_wells _ _ 1 _ _ _ _ _ _ _ _ _ ?_ hmin ?_⟩
  · intro j hj
    have hj0 : j = 0 := by
      simp only [List.length_cons, List.length_nil] at hj
      omega
    subst hj0
    simp
  · intro j hj r hr him hre
    have hj0 : j = 0 := by
      simp only [List.length_cons, List.length_nil] at hj
      omega
    subst hj0
    rw [List.getD_cons_zero, List.mem_singleton] at hr
    subst hr
    exfalso
    simp only [Complex.re_ofNat] at hre
    norm_num at hre

/-- Below the padding threshold, `take_mask` returns the selected entries in
order. -/
theorem takeMask_getD_lt_kept {α : Type} (y : List α) (m : List Bool) (n : ℕ)
    (fill : α) (d : α) (i : ℕ) (hi : i < n) (hk : i < (keptOf y m).length) :
    (takeMask y m n fill).getD i d = (keptOf y m).getD i d := by
  have hlen : i < (takeMask y m n fill).length := by
    rw [takeMask_length]
    exact hi
  rw [List.getD_eq_getElem _ _ hlen, List.getD_eq_getElem _ _ hk]
  simp only [takeMask, List.getElem_take]
  rw [List.getElem_append_left hk]

/-- Beyond the selected entries, `take_mask` holds the fill value. -/
theorem takeMask_getD_ge_kept {α : Type} (y : List α) (m : List Bool) (n : ℕ)
    (fill : α) (d : α) (i : ℕ) (hi : i < n)
    (hk : (keptOf y m).length ≤ i) :
    (takeMask y m n fill).getD i d = fill := by
  have hlen : i < (takeMask y m n fill).length := by
    rw [takeMask_length]
    exact hi
  rw [List.getD_eq_getElem _ _ hlen]
  simp only [takeMask, List.getElem_take]
  rw [List.getElem_append_right hk, List.getElem_replicate]

/-- Pointwise description of the output stage of `bounce_points`. -/
theorem padStage_getD (y : List ℝ) (m1 m2 : List Bool) (n : ℕ) (s : ℝ)
    (i : ℕ) (hi : i < n) :
    (padStage y m1 m2 n s).1.getD i 0 =
      (if s < (takeMask y m1 n s).getD i 0 ∧ s < (takeMask y m2 n s).getD i 0
       then (takeMask y m1 n s).getD i 0 else 0) ∧
    (padStage y m1 m2 n s).2.getD i 0 =
      (if s < (takeMask y m1 n s).getD i 0 ∧ s < (takeMask y m2 n s).getD i 0
       then (takeMask y m2 n s).getD i 0 else 0) := by
  have hz : i < ((takeMask y m1 n s).zip (takeMask y m2 n s)).length := by
    rw [List.length_zip, takeMask_length, takeMask_length]
    omega
  have h1 : i < (takeMask y m1 n s).length := by
    rw [takeMask_length]
    omega
  have h2 : i < (takeMask y m2 n s).length := by
    rw [takeMask_length]
    omega
  constructor <;>
  · simp only [padStage]
    rw [getD_map_of_lt _ _ i hz 0 (0, 0), List.getD_eq_getElem _ _ hz,
      List.getElem_zip, List.getD_eq_getElem _ _ h1, List.getD_eq_getElem _ _ h2]

/-- C5 (counterexample): with domain [0, 2] (left endpoint 0) and no wells
found, the RETURNED arrays are right-padded with the value 0, and 0 is a
possible coordinate value — it is the image of the normalized point -1 under
the bijection onto the domain — so the returned padding is not "a sentinel
distinct from any possible coordinate value"; the internal sentinel
(domain[0] - 1 = -1) is overwritten by 0 in the returned arrays. -/
theorem C5_counterexample :
    (padStage [(1 : ℝ) / 2] [false] [false] 1 (-1)).1 = [0] ∧
    (padStage [(1 : ℝ) / 2] [false] [false] 1 (-1)).2 = [0] ∧
    bijectionFromDisc (-1) 0 2 = 0 ∧
    ((-1 : ℝ) ≤ -1 ∧ (-1 : ℝ) ≤ 1) := by
  have h := padStage_of_false [(1 : ℝ) / 2] [false] [false] 1 (-1)
    (by intro b hb; simpa using hb)
  rw [h]
  refine ⟨by rw [List.replicate_one], by rw [List.replicate_one], ?_, by norm_num⟩
  rw [bijectionFromDisc]
  norm_num

/-- C5 (amended): the returned bounce-point arrays have exactly the fixed
width of the well axis; internally the missing wells are marked with the
sentinel `domain[0] - 1`, which is strictly below every coordinate, and in
the returned arrays every padded (masked-out) slot carries z1 = z2 = 0 — an
equal pair, so the bounce integral over that slot is exactly zero — while the
genuine wells occupy the leading slots unchanged. -/
theorem C5_padding (y : List ℝ) (m1 m2 : List Bool) (numWell : ℕ)
    (sentinel : ℝ) (h : ∀ v ∈ y, sentinel < v) :
    ((padStage y m1 m2 numWell sentinel).1.length = numWell ∧
     (padStage y m1 m2 numWell sentinel).2.length = numWell) ∧
    (∀ i, i < numWell →
      min (keptOf y m1).length (keptOf y m2).length ≤ i →
      (padStage y m1 m2 numWell sentinel).1.getD i 0 = 0 ∧
      (padStage y m1 m2 numWell sentinel).2.getD i 0 = 0) ∧
    (∀ i, i < numWell →
      i < min (keptOf y m1).length (keptOf y m2).length →
      (padStage y m1 m2 numWell sentinel).1.getD i 0 =
        (keptOf y m1).getD i 0 ∧
      (padStage y m1 m2 numWell sentinel).2.getD i 0 =
        (keptOf y m2).getD i 0) := by
  refine ⟨?_, ?_, ?_⟩
  · constructor <;>
    · simp only [padStage, List.length_map, List.length_zip, takeMask_length]
      omega
  · intro i hi hge
    obtain ⟨e1, e2⟩ := padStage_getD y m1 m2 numWell sentinel i hi
    have hcond : ¬(sentinel < (takeMask y m1 numWell sentinel).getD i 0 ∧
        sentinel < (takeMask y m2 numWell sentinel).getD i 0) := by
      rcases min_le_iff.mp hge with hc | hc
      · rintro ⟨hlt, -⟩
        rw [takeMask_getD_ge_kept y m1 numWell sentinel 0 i hi hc] at hlt
        exact lt_irrefl sentinel hlt
      · rintro ⟨-, hlt⟩
        rw [takeMask_getD_ge_kept y m2 numWell sentinel 0 i hi hc] at hlt
        exact lt_irrefl sentinel hlt
    rw [e1, e2, if_neg hcond, if_neg hcond]
    exact ⟨rfl, rfl⟩
  · intro i hi hlt
    have hk1 : i < (keptOf y m1).length := lt_of_lt_of_le hlt (min_le_left _ _)
    have hk2 : i < (keptOf y m2).length := lt_of_lt_of_le hlt (min_le_right _ _)
    obtain ⟨e1, e2⟩ := padStage_getD y m1 m2 numWell sentinel i hi
    have hcond : sentinel < (keptOf y m1).getD i 0 ∧
        sentinel < (keptOf y m2).getD i 0 := by
      constructor
      · exact h _ (mem_of_mem_keptOf y m1 _
          ((List.getD_eq_getElem _ _ hk1) ▸ List.getElem_mem hk1))
      · exact h _ (mem_of_mem_keptOf y m2 _
          ((List.getD_eq_getElem _ _ hk2) ▸ List.getElem_mem hk2))
    rw [e1, e2, takeMask_getD_lt_kept y m1 numWell sentinel 0 i hi hk1,
      takeMask_getD_lt_kept y m2 numWell sentinel 0 i hi hk2, if_pos hcond,
      if_pos hcond]
    exact ⟨rfl, rfl⟩

theorem C5_padding_witness :
    (∀ v ∈ [(1 : ℝ) / 2], (-1 : ℝ) < v) ∧
    ((((padStage [(1 : ℝ) / 2] [true] [true] 2 (-1)).1.length = 2 ∧
       (padStage [(1 : ℝ) / 2] [true] [true] 2 (-1)).2.length = 2) ∧
      (∀ i, i < 2 →
        min (keptOf [(1 : ℝ) / 2] [true]).length
          (keptOf [(1 : ℝ) / 2] [true]).length ≤ i →
        (padStage [(1 : ℝ) / 2] [true] [true] 2 (-1)).1.getD i 0 = 0 ∧
        (padStage [(1 : ℝ) / 2] [true] [true] 2 (-1)).2.getD i 0 = 0) ∧
      (∀ i, i < 2 →
        i < min (keptOf [(1 : ℝ) / 2] [true]).length
          (keptOf [(1 : ℝ) / 2] [true]).length →
        (padStage [(1 : ℝ) / 2] [true] [true] 2 (-1)).1.getD i 0 =
          (keptOf [(1 : ℝ) / 2] [true]).getD i 0 ∧
        (padStage [(1 : ℝ) / 2] [true] [true] 2 (-1)).2.getD i 0 =
          (keptOf [(1 : ℝ) / 2] [true]).getD i 0))) :=
  ⟨by
    intro v hv
    rw [List.mem_singleton] at hv
    rw [hv]
    norm_num,
   C5_padding [(1 : ℝ) / 2] [true] [true] 2 (-1)
     (by
       intro v hv
       rw [List.mem_singleton] at hv
       rw [hv]
       norm_num)⟩

theorem C1_check_raises_iff_witness :
    checkRaises (fun x => x) [1, 3] [2, 3] 1 0 = false ↔
      ((∀ i, i < ([1, 3] : List ℚ).length → bpMask [1, 3] [2, 3] i →
          ([1, 3] : List ℚ).getD i 0 ≤ ([2, 3] : List ℚ).getD i 0) ∧
       (∀ i, i + 1 < ([1, 3] : List ℚ).length → bpMask [1, 3] [2, 3] i →
          bpMask [1, 3] [2, 3] (i + 1) →
          ([2, 3] : List ℚ).getD i 0 ≤ ([1, 3] : List ℚ).getD (i + 1) 0) ∧
       (∀ i, i < ([1, 3] : List ℚ).length → bpMask [1, 3] [2, 3] i →
          (fun x : ℚ => x) ((([1, 3] : List ℚ).getD i 0 +
            ([2, 3] : List ℚ).getD i 0) / 2) ≤ 1 / 1 + 0)) :=
  C1_check_raises_iff (fun x => x) [1, 3] [2, 3] 1 0

theorem C7_construction_validation_witness :
    (exceptOk (mkFourierChebyshevBasis 4 8 (0, 2) false) ↔
      ((0 : ℚ), (2 : ℚ)).1 ≤ ((0 : ℚ), (2 : ℚ)).2) ∧
    (exceptOk (mkKnots [0, 1, 2]) ↔
      ([0, 1, 2] : List ℚ).Chain' (· < ·)) :=
  C7_construction_validation 4 8 (0, 2) [0, 1, 2]
